import Mathlib

/-!
Verification of the agentforge persistent-memory engine.

This file shallowly embeds the parts of the source that the checked
properties are about:

* the ULID identity generator and timestamp decoder
  (`packages/memory/src/types/self-schema.ts`: `ulid`, `extractTimestamp`);
* the reconsolidation window state machine (modelled from the spec, the
  engine itself is not part of the shipped sources);
* the budget-aware greedy retrieval packing (modelled from the spec);
* the export panel projection (`PANEL_JS` in the export module):
  filter state, `matches`, the stable sort by `createdAt`, pagination,
  and the HTML escaping helpers `escHtml` / `escAttr`.

Strings are modelled as `List Char`; JavaScript numbers that hold
millisecond timestamps or counters are modelled as `Nat`.
-/

namespace AgentForge

-- ===========================================================================
-- ULID generator (source: self-schema.ts, `ulid` / `extractTimestamp`)
-- ===========================================================================

/-- The underscore separator used between a prefix tag and the ULID body. -/
def und : Char := '_'

/-- Crockford base-32 alphabet (source constant `ENCODING`). -/
def ENCODING : List Char := ("0123456789ABCDEFGHJKMNPQRSTVWXYZ").toList

/-- `ENCODING[n]` as in the source's indexing; out-of-range never occurs
because every index is reduced mod 32 first. -/
def digitChar (n : Nat) : Char := ENCODING.getD n (Char.ofNat 48)

/-- The timestamp-encoding loop of `ulid`: `n` iterations producing the
`n` base-32 digits of `ts`, most significant first
(`str = ENCODING[ts % 32] + str; ts = floor(ts / 32)`). -/
def encodeTimeAux : Nat → Nat → List Char
  | 0, _ => []
  | n + 1, ts => encodeTimeAux n (ts / 32) ++ [digitChar (ts % 32)]

/-- The 10-character timestamp part of a ULID (source `TIME_LEN = 10`). -/
def encodeTime (ts : Nat) : List Char := encodeTimeAux 10 ts

/-- The random part of a ULID: each draw `r` models one
`Math.floor(Math.random() * ENCODING_LEN)` result, reduced mod 32. -/
def randomPart (rs : List Nat) : List Char := rs.map (fun r => digitChar (r % 32))

/-- `ulid(prefix?)` from the source, with the millisecond clock value and
the random draws made explicit.  An empty `pfx` models the absent /
falsy-empty prefix: the id is the bare 26-character body, otherwise
`prefix + "_" + body`. -/
def ulid (pfx : List Char) (now : Nat) (rs : List Nat) : List Char :=
  if pfx = [] then encodeTime now ++ randomPart rs
  else pfx ++ und :: (encodeTime now ++ randomPart rs)

/-- JavaScript `String.prototype.split("_")` on a character list:
the list of chunks between underscores. -/
def splitChunks : List Char → List (List Char)
  | [] => [[]]
  | c :: cs =>
    if c = und then [] :: splitChunks cs
    else
      match splitChunks cs with
      | [] => [[c]]
      | h :: t => (c :: h) :: t

/-- The body `extractTimestamp` decodes: the source computes
`id.includes("_") ? id.split("_")[1] : id`, i.e. the chunk between the
first and second underscore when the id contains one. -/
def bodyOf (id : List Char) : List Char :=
  if und ∈ id then (splitChunks id).getD 1 [] else id

/-- `ENCODING.indexOf(c)`, with JavaScript's `-1` modelled as `none`. -/
def charIndexAux (c : Char) : List Char → Option Nat
  | [] => none
  | x :: xs => if x = c then some 0 else (charIndexAux c xs).map (· + 1)

/-- Index of a character in the Crockford alphabet. -/
def charIndex (c : Char) : Option Nat := charIndexAux c ENCODING

/-- The decoding loop of `extractTimestamp`: fold
`timestamp = timestamp * 32 + charIndex` over the characters, failing on
the first character outside the alphabet. -/
def decodeTimeAux : Nat → List Char → Option Nat
  | acc, [] => some acc
  | acc, c :: cs =>
    match charIndex c with
    | none => none
    | some i => decodeTimeAux (acc * 32 + i) cs

/-- `extractTimestamp(id)` from the source; `none` models the thrown
`Invalid ULID` error. -/
def extractTimestamp (id : List Char) : Option Nat :=
  let body := bodyOf id
  if body.length < 10 then none
  else decodeTimeAux 0 ((body.take 10).map Char.toUpper)

/-- Lexicographic strict comparison of character lists by code point,
modelling JavaScript string `<`. -/
def lexLt : List Char → List Char → Bool
  | [], [] => false
  | [], _ :: _ => true
  | _ :: _, [] => false
  | a :: as, b :: bs =>
    if a.toNat < b.toNat then true
    else if b.toNat < a.toNat then false
    else lexLt as bs

-- ===========================================================================
-- Basic facts about the alphabet and the encoding loops
-- ===========================================================================

theorem digitChar_mem_ENCODING : ∀ m, m < 32 → digitChar m ∈ ENCODING := by decide

theorem digitChar_ne_und : ∀ m, m < 32 → digitChar m ≠ und := by decide

theorem toUpper_digitChar : ∀ m, m < 32 → Char.toUpper (digitChar m) = digitChar m := by decide

theorem charIndex_digitChar : ∀ m, m < 32 → charIndex (digitChar m) = some m := by decide

theorem digitChar_strictMono :
    ∀ a, a < 32 → ∀ b, b < 32 → a < b → (digitChar a).toNat < (digitChar b).toNat := by decide

theorem encodeTimeAux_length (n : Nat) : ∀ ts, (encodeTimeAux n ts).length = n := by
  induction n with
  | zero => intro ts; rfl
  | succ n ih => intro ts; simp [encodeTimeAux, ih]

theorem mem_encodeTimeAux {c : Char} {n ts : Nat} (h : c ∈ encodeTimeAux n ts) :
    ∃ m, m < 32 ∧ c = digitChar m := by
  induction n generalizing ts with
  | zero => simp [encodeTimeAux] at h
  | succ n ih =>
    simp only [encodeTimeAux, List.mem_append, List.mem_singleton] at h
    rcases h with h | h
    · exact ih h
    · exact ⟨ts % 32, Nat.mod_lt _ (by norm_num), h⟩

theorem und_not_mem_encodeTimeAux (n ts : Nat) : und ∉ encodeTimeAux n ts := by
  intro h
  obtain ⟨m, hm, hc⟩ := mem_encodeTimeAux h
  exact digitChar_ne_und m hm hc.symm

theorem und_not_mem_randomPart (rs : List Nat) : und ∉ randomPart rs := by
  intro h
  simp only [randomPart, List.mem_map] at h
  obtain ⟨r, _, hc⟩ := h
  exact digitChar_ne_und (r % 32) (Nat.mod_lt _ (by norm_num)) hc

theorem splitChunks_of_not_mem {l : List Char} (h : und ∉ l) : splitChunks l = [l] := by
  induction l with
  | nil => rfl
  | cons c cs ih =>
    simp only [List.mem_cons, not_or] at h
    rw [splitChunks, if_neg (fun hc => h.1 hc.symm), ih h.2]

theorem splitChunks_append {p : List Char} (rest : List Char) (h : und ∉ p) :
    splitChunks (p ++ und :: rest) = p :: splitChunks rest := by
  induction p with
  | nil => simp [splitChunks]
  | cons c cs ih =>
    simp only [List.mem_cons, not_or] at h
    rw [List.cons_append, splitChunks, if_neg (fun hc => h.1 hc.symm), ih h.2]

theorem bodyOf_ulid {pfx : List Char} (ts : Nat) (rs : List Nat) (h : und ∉ pfx) :
    bodyOf (ulid pfx ts rs) = encodeTime ts ++ randomPart rs := by
  have hnm : und ∉ encodeTime ts ++ randomPart rs := by
    simp only [List.mem_append, not_or]
    exact ⟨und_not_mem_encodeTimeAux 10 ts, und_not_mem_randomPart rs⟩
  by_cases hp : pfx = []
  · subst hp
    simp [ulid, bodyOf, hnm]
  · have hid : ulid pfx ts rs = pfx ++ und :: (encodeTime ts ++ randomPart rs) := by
      simp [ulid, hp]
    have hmem : und ∈ pfx ++ und :: (encodeTime ts ++ randomPart rs) := by simp
    rw [hid]
    simp only [bodyOf, if_pos hmem]
    rw [splitChunks_append _ h, splitChunks_of_not_mem hnm]
    rfl

theorem decodeTimeAux_append (a : Nat) (l₁ l₂ : List Char) :
    decodeTimeAux a (l₁ ++ l₂) =
      match decodeTimeAux a l₁ with
      | none => none
      | some b => decodeTimeAux b l₂ := by
  induction l₁ generalizing a with
  | nil => rfl
  | cons c cs ih =>
    simp only [List.cons_append, decodeTimeAux]
    cases charIndex c with
    | none => rfl
    | some i => exact ih _

theorem decodeTimeAux_encodeTimeAux (n : Nat) : ∀ a ts,
    decodeTimeAux a (encodeTimeAux n ts) = some (a * 32 ^ n + ts % 32 ^ n) := by
  induction n with
  | zero => intro a ts; simp [encodeTimeAux, decodeTimeAux, Nat.mod_one]
  | succ n ih =>
    intro a ts
    rw [encodeTimeAux, decodeTimeAux_append, ih]
    simp only [decodeTimeAux, charIndex_digitChar (ts % 32) (Nat.mod_lt _ (by norm_num))]
    congr 1
    rw [Nat.pow_succ', Nat.mod_mul]
    ring

theorem decodeTimeAux_eq_none_iff (l : List Char) : ∀ a,
    decodeTimeAux a l = none ↔ ∃ c ∈ l, charIndex c = none := by
  induction l with
  | nil => intro a; simp [decodeTimeAux]
  | cons c cs ih =>
    intro a
    simp only [decodeTimeAux]
    cases hc : charIndex c with
    | none =>
      simp only [hc]
      exact ⟨fun _ => ⟨c, List.mem_cons_self c cs, hc⟩, fun _ => trivial⟩
    | some i =>
      simp only [hc, ih]
      constructor
      · rintro ⟨x, hx, hnone⟩
        exact ⟨x, List.mem_cons_of_mem c hx, hnone⟩
      · rintro ⟨x, hx, hnone⟩
        rcases List.mem_cons.mp hx with h | h
        · subst h
          rw [hc] at hnone
          exact absurd hnone (by simp)
        · exact ⟨x, h, hnone⟩

theorem map_toUpper_of_fixed {f : Char → Char} :
    ∀ {l : List Char}, (∀ c ∈ l, f c = c) → l.map f = l := by
  intro l
  induction l with
  | nil => intro _; rfl
  | cons c cs ih =>
    intro h
    simp only [List.map_cons]
    rw [h c (List.mem_cons_self c cs), ih (fun x hx => h x (List.mem_cons_of_mem c hx))]

-- ===========================================================================
-- Claims C4, C5, C6: the timestamp round trip and error behaviour
-- ===========================================================================

/-- C4 (amended): for every prefix that does not itself contain the
underscore separator, decoding the generated id recovers exactly the
millisecond timestamp used at generation: `extractTimestamp (ulid pfx ts rs)
= some ts` whenever `ts` fits in the 10 base-32 digits. -/
theorem extractTimestamp_ulid (pfx : List Char) (ts : Nat) (rs : List Nat)
    (hts : ts < 32 ^ 10) (hp : und ∉ pfx) :
    extractTimestamp (ulid pfx ts rs) = some ts := by
  have hbody := bodyOf_ulid ts rs hp
  have hlen : (encodeTime ts).length = 10 := encodeTimeAux_length 10 ts
  have hnotlt : ¬ ((encodeTime ts ++ randomPart rs).length < 10) := by
    rw [List.length_append, hlen]
    omega
  have hupper : (encodeTime ts).map Char.toUpper = encodeTime ts := by
    apply map_toUpper_of_fixed
    intro c hc
    obtain ⟨m, hm, rfl⟩ := mem_encodeTimeAux hc
    exact toUpper_digitChar m hm
  simp only [extractTimestamp, hbody, if_neg hnotlt]
  rw [List.take_left' hlen, hupper, encodeTime, decodeTimeAux_encodeTimeAux,
    Nat.zero_mul, Nat.zero_add, Nat.mod_eq_of_lt hts]

/-- C4 counterexample: the claim quantifies over *every* prefix, but with a
prefix that contains an underscore (here `"a_b"`) the decoder strips the
characters between the first and second underscore and fails, instead of
recovering the timestamp `0`. -/
theorem extractTimestamp_ulid_cex :
    ¬ (extractTimestamp (ulid (("a_b").toList) 0 (List.replicate 16 0)) = some 0) := by
  decide

/-- C5 (amended): `extractTimestamp` fails iff, after taking the chunk
between the first and second underscore (the whole string when it has no
underscore), that chunk is shorter than 10 characters or its *first 10*
characters contain, after upper-casing, a character outside the Crockford
base-32 alphabet. -/
theorem extractTimestamp_eq_none_iff (id : List Char) :
    extractTimestamp id = none ↔
      (bodyOf id).length < 10 ∨
        ∃ c ∈ (bodyOf id).take 10, charIndex (Char.toUpper c) = none := by
  simp only [extractTimestamp]
  by_cases h : (bodyOf id).length < 10
  · simp [h]
  · simp only [if_neg h]
    rw [decodeTimeAux_eq_none_iff]
    constructor
    · rintro ⟨c, hc, hnone⟩
      obtain ⟨x, hx, rfl⟩ := List.mem_map.mp hc
      exact Or.inr ⟨x, hx, hnone⟩
    · rintro (hlt | ⟨x, hx, hnone⟩)
      · exact absurd hlt h
      · exact ⟨Char.toUpper x, List.mem_map_of_mem _ hx, hnone⟩

/-- C5 counterexample: the claim as stated makes `extractTimestamp` fail
whenever *any* character of the stripped string is outside the alphabet,
but the source inspects only the first 10 characters: on
`"0000000000!"` the decoder succeeds (returning `0`) although the string
contains `!`. -/
theorem extractTimestamp_eq_none_iff_cex :
    ¬ (extractTimestamp (("0000000000!").toList) = none ↔
        ((bodyOf (("0000000000!").toList)).length < 10 ∨
          ∃ c ∈ bodyOf (("0000000000!").toList), charIndex (Char.toUpper c) = none)) := by
  decide

/-- C6: the generated id is the 10-character left-padded base-32 encoding
of the timestamp followed by the 16-character random part, every character
drawn from the Crockford alphabet; a non-empty prefix is prepended with an
underscore separator, otherwise the id is exactly the 26-character body. -/
theorem ulid_structure (pfx : List Char) (ts : Nat) (rs : List Nat)
    (hts : ts < 32 ^ 10) (hrs : rs.length = 16) :
    (encodeTime ts).length = 10 ∧
    (randomPart rs).length = 16 ∧
    decodeTimeAux 0 (encodeTime ts) = some ts ∧
    (∀ c ∈ encodeTime ts ++ randomPart rs, c ∈ ENCODING) ∧
    ulid [] ts rs = encodeTime ts ++ randomPart rs ∧
    (pfx ≠ [] → ulid pfx ts rs = pfx ++ und :: (encodeTime ts ++ randomPart rs)) := by
  refine ⟨encodeTimeAux_length 10 ts, ?_, ?_, ?_, rfl, ?_⟩
  · simp [randomPart, hrs]
  · rw [encodeTime, decodeTimeAux_encodeTimeAux,
      Nat.zero_mul, Nat.zero_add, Nat.mod_eq_of_lt hts]
  · intro c hc
    rcases List.mem_append.mp hc with h | h
    · obtain ⟨m, hm, rfl⟩ := mem_encodeTimeAux h
      exact digitChar_mem_ENCODING m hm
    · simp only [randomPart, List.mem_map] at h
      obtain ⟨r, _, rfl⟩ := h
      exact digitChar_mem_ENCODING _ (Nat.mod_lt _ (by norm_num))
  · intro hp
    simp [ulid, hp]

/-- Witness for `ulid_structure` at `ts = 0`, `rs = replicate 16 0`. -/
theorem ulid_structure_witness :
    (0:Nat) < 32 ^ 10 ∧ (List.replicate 16 (0:Nat)).length = 16 ∧
      decodeTimeAux 0 (encodeTime 0) = some 0 :=
  ⟨by norm_num, by simp,
    (ulid_structure (("mem").toList) 0 (List.replicate 16 0) (by norm_num) (by simp)).2.2.1⟩

/-- Witness for `extractTimestamp_ulid` at prefix `"mem"`, `ts = 5`. -/
theorem extractTimestamp_ulid_witness :
    (5:Nat) < 32 ^ 10 ∧ und ∉ (("mem").toList) ∧
      extractTimestamp (ulid (("mem").toList) 5 (List.replicate 16 0)) = some 5 :=
  ⟨by norm_num, by decide, extractTimestamp_ulid _ 5 _ (by norm_num) (by decide)⟩

-- ===========================================================================
-- Claim C3: lexicographic monotonicity of generated ids
-- ===========================================================================

theorem lexLt_append_same : ∀ (p xs ys : List Char), lexLt (p ++ xs) (p ++ ys) = lexLt xs ys := by
  intro p
  induction p with
  | nil => intro xs ys; rfl
  | cons c cs ih =>
    intro xs ys
    simp only [List.cons_append, lexLt, lt_self_iff_false, if_false]
    exact ih xs ys

theorem lexLt_append_of_lt : ∀ (xs ys as bs : List Char), xs.length = ys.length →
    lexLt xs ys = true → lexLt (xs ++ as) (ys ++ bs) = true := by
  intro xs
  induction xs with
  | nil =>
    intro ys as bs hlen h
    cases ys with
    | nil => exact absurd h (by simp [lexLt])
    | cons y ys2 => simp at hlen
  | cons x xs2 ih =>
    intro ys as bs hlen h
    cases ys with
    | nil => simp at hlen
    | cons y ys2 =>
      simp only [List.cons_append, lexLt] at h ⊢
      by_cases h1 : x.toNat < y.toNat
      · simp [h1]
      · by_cases h2 : y.toNat < x.toNat
        · rw [if_neg h1, if_pos h2] at h
          exact absurd h (by simp)
        · rw [if_neg h1, if_neg h2] at h ⊢
          exact ih ys2 as bs (by simpa using hlen) h

theorem encodeTimeAux_mono : ∀ n ts₁ ts₂, ts₁ < ts₂ → ts₂ < 32 ^ n →
    lexLt (encodeTimeAux n ts₁) (encodeTimeAux n ts₂) = true := by
  intro n
  induction n with
  | zero =>
    intro ts₁ ts₂ h h2
    simp only [Nat.pow_zero] at h2
    omega
  | succ n ih =>
    intro ts₁ ts₂ h h2
    simp only [encodeTimeAux]
    rcases Nat.lt_or_ge (ts₁ / 32) (ts₂ / 32) with hq | hq
    · apply lexLt_append_of_lt
      · rw [encodeTimeAux_length, encodeTimeAux_length]
      · apply ih _ _ hq
        rw [Nat.div_lt_iff_lt_mul (by norm_num)]
        rw [← Nat.pow_succ]
        exact h2
    · have hqe : ts₂ / 32 = ts₁ / 32 := by
        have : ts₁ / 32 ≤ ts₂ / 32 := Nat.div_le_div_right (Nat.le_of_lt h)
        omega
      have hr : ts₁ % 32 < ts₂ % 32 := by
        have h₁ := Nat.div_add_mod ts₁ 32
        have h₂ := Nat.div_add_mod ts₂ 32
        omega
      rw [hqe, lexLt_append_same]
      have hd := digitChar_strictMono _ (Nat.mod_lt _ (by norm_num)) _
        (Nat.mod_lt _ (by norm_num)) hr
      simp [lexLt, hd]

/-- C3: two ids generated with the same prefix at strictly increasing
millisecond timestamps compare lexicographically in generation order,
whatever the random suffixes are. -/
theorem ulid_lt_of_ts_lt (pfx : List Char) (ts₁ ts₂ : Nat) (rs₁ rs₂ : List Nat)
    (h : ts₁ < ts₂) (h2 : ts₂ < 32 ^ 10) :
    lexLt (ulid pfx ts₁ rs₁) (ulid pfx ts₂ rs₂) = true := by
  have hlen : (encodeTime ts₁).length = (encodeTime ts₂).length := by
    rw [encodeTime, encodeTime, encodeTimeAux_length, encodeTimeAux_length]
  have hcore : lexLt (encodeTime ts₁ ++ randomPart rs₁)
      (encodeTime ts₂ ++ randomPart rs₂) = true :=
    lexLt_append_of_lt _ _ _ _ hlen (encodeTimeAux_mono 10 ts₁ ts₂ h h2)
  by_cases hp : pfx = []
  · simpa [ulid, hp] using hcore
  · have hsplit : ∀ xs : List Char, pfx ++ und :: xs = (pfx ++ [und]) ++ xs := by
      intro xs
      simp
    simp only [ulid, if_neg hp]
    rw [hsplit (encodeTime ts₁ ++ randomPart rs₁), hsplit (encodeTime ts₂ ++ randomPart rs₂),
      lexLt_append_same]
    exact hcore

/-- Witness for `ulid_lt_of_ts_lt` at timestamps `0 < 1`. -/
theorem ulid_lt_of_ts_lt_witness :
    (0:Nat) < 1 ∧ (1:Nat) < 32 ^ 10 ∧ lexLt (ulid [] 0 []) (ulid [] 1 []) = true :=
  ⟨by decide, by norm_num, ulid_lt_of_ts_lt [] 0 1 [] [] (by decide) (by norm_num)⟩

-- ===========================================================================
-- Claim C1: reconsolidation lability windows
-- ===========================================================================

/-- `ReconsolidationEvent`, restricted to the fields the claim is about
(source: `self-schema.ts`, interface `ReconsolidationEvent`): the memory
being reconsolidated, when its lability window opened, and when it closed
(`none` = still open). -/
structure ReconEvent where
  memoryId : Nat
  labilityWindowStart : Nat
  labilityWindowEnd : Option Nat
deriving DecidableEq

/-- Reconsolidation protocol errors (spec §4.4 / §7). -/
inductive ReconErr where
  | windowAlreadyOpen
deriving DecidableEq

/-- An event whose lability window is open for memory `mid`. -/
def isOpenFor (mid : Nat) (e : ReconEvent) : Bool :=
  e.memoryId == mid && e.labilityWindowEnd.isNone

/-- Whether some open window exists for `mid` in the event store. -/
def hasOpenWindow (s : List ReconEvent) (mid : Nat) : Bool :=
  s.any (isOpenFor mid)

/-- Modelled from the spec: the reconsolidation engine's window-open
operation is not part of the shipped sources (only the
`ReconsolidationEvent` type is); per §4.4 an open attempt on an
already-labile memory fails with `WindowAlreadyOpen`, otherwise a new
event with `labilityWindowStart = now` and an open end is recorded
atomically (§5: per-memory compare-and-set). -/
def openWindow (s : List ReconEvent) (mid now : Nat) : Except ReconErr (List ReconEvent) :=
  if hasOpenWindow s mid then .error .windowAlreadyOpen
  else .ok (⟨mid, now, none⟩ :: s)

/-- Modelled from the spec: closing the window of memory `mid` sets
`labilityWindowEnd = now` on its open event (§4.4). -/
def closeWindow (s : List ReconEvent) (mid now : Nat) : List ReconEvent :=
  s.map (fun e => if isOpenFor mid e then { e with labilityWindowEnd := some now } else e)

/-- One atomic engine operation on the window state. -/
inductive ReconOp where
  | openW (mid now : Nat)
  | closeW (mid now : Nat)

/-- Effect of one atomic operation on the event store; a failed open
(`WindowAlreadyOpen`) leaves the store unchanged. -/
def applyOp (s : List ReconEvent) : ReconOp → List ReconEvent
  | .openW mid now =>
    match openWindow s mid now with
    | .error _ => s
    | .ok s2 => s2
  | .closeW mid now => closeWindow s mid now

/-- Any interleaving of atomic window operations is a sequence. -/
def runOps (s : List ReconEvent) (ops : List ReconOp) : List ReconEvent :=
  ops.foldl applyOp s

/-- The invariant: at most one event per memory has a `none`
(`null`) `labilityWindowEnd`. -/
def OneOpenPerMemory (s : List ReconEvent) : Prop :=
  ∀ mid, s.countP (fun e => isOpenFor mid e) ≤ 1

theorem countP_map_le {β : Type} (p : β → Bool) (f : β → β) (l : List β)
    (h : ∀ e, p (f e) = true → p e = true) :
    (l.map f).countP p ≤ l.countP p := by
  rw [List.countP_map]
  apply List.countP_mono_left
  intro x _ hx
  exact h x hx

theorem applyOp_preserves (s : List ReconEvent) (op : ReconOp)
    (h : OneOpenPerMemory s) : OneOpenPerMemory (applyOp s op) := by
  intro mid
  cases op with
  | openW m now =>
    simp only [applyOp, openWindow]
    by_cases hw : hasOpenWindow s m
    · simp only [if_pos hw]
      exact h mid
    · simp only [if_neg hw]
      simp only [List.countP_cons]
      by_cases hm : m = mid
      · subst hm
        have hzero : s.countP (fun e => isOpenFor m e) = 0 := by
          rw [List.countP_eq_zero]
          intro e he hcontra
          exact hw (by rw [hasOpenWindow, List.any_eq_true]; exact ⟨e, he, hcontra⟩)
        rw [hzero]
        simp [isOpenFor]
      · have hne : isOpenFor mid ⟨m, now, none⟩ = false := by
          simp [isOpenFor, hm]
        rw [hne]
        simpa using h mid
  | closeW m now =>
    simp only [applyOp, closeWindow]
    calc ((s.map _).countP fun e => isOpenFor mid e) ≤ s.countP fun e => isOpenFor mid e := by
          apply countP_map_le
          intro e he
          by_cases hc : isOpenFor m e
          · rw [if_pos hc] at he
            simp [isOpenFor] at he
          · rwa [if_neg hc] at he
      _ ≤ 1 := h mid

/-- C1 (spec-modelled): starting from any state in which every memory has at
most one open lability window, any sequence of atomic open/close
operations — hence any interleaving of concurrent attempts, since §5
requires opens to be atomic compare-and-sets — preserves the invariant
that at most one `ReconsolidationEvent` per memory has a null
`labilityWindowEnd`; a second open on an already-labile memory fails with
`WindowAlreadyOpen` and changes nothing. -/
theorem oneOpenPerMemory_invariant (s : List ReconEvent) (ops : List ReconOp)
    (h : OneOpenPerMemory s) : OneOpenPerMemory (runOps s ops) := by
  induction ops generalizing s with
  | nil => exact h
  | cons op ops ih => exact ih _ (applyOp_preserves s op h)

/-- Witness for `oneOpenPerMemory_invariant`: three concurrent open
attempts on memory 1 followed by a close, from the empty store. -/
theorem oneOpenPerMemory_invariant_witness :
    OneOpenPerMemory (runOps []
      [ReconOp.openW 1 10, ReconOp.openW 1 11, ReconOp.openW 1 12, ReconOp.closeW 1 13]) :=
  oneOpenPerMemory_invariant []
    [ReconOp.openW 1 10, ReconOp.openW 1 11, ReconOp.openW 1 12, ReconOp.closeW 1 13]
    (fun mid => by simp)

-- ===========================================================================
-- Claim C2: budget-aware greedy retrieval packing (modelled from the spec)
-- ===========================================================================

section Budget

variable {α : Type} (score : α → Int) (cost : α → Nat)

/-- Modelled from the spec: stable insertion of a candidate into a list
kept in descending score order (§4.6 sorts retrieval results by the
hybrid score before packing; the packing function itself is not part of
the shipped sources). -/
def insertDesc (m : α) : List α → List α
  | [] => [m]
  | x :: xs => if score x < score m then m :: x :: xs else x :: insertDesc m xs

/-- Modelled from the spec: sort candidates in descending score order. -/
def sortDesc (l : List α) : List α :=
  l.foldl (fun acc m => insertDesc score m acc) []

/-- Modelled from the spec: `queryWithinBudget`'s accumulation loop —
walk the score-sorted list, keep a running cost, and stop at the first
candidate whose cost would push the total over the budget; a memory is
always taken whole (§4.6). -/
def greedyAcc (budget : Nat) : Nat → List α → List α
  | _, [] => []
  | acc, m :: ms =>
    if acc + cost m ≤ budget then m :: greedyAcc budget (acc + cost m) ms
    else []

/-- Modelled from the spec:
`queryWithinBudget(criteria, budget, costFn) -> (selected, totalCost)`:
score-sort the candidates, greedily select a prefix within the budget,
and return it with its summed cost. -/
def queryWithinBudget (cands : List α) (budget : Nat) : List α × Nat :=
  let sel := greedyAcc cost budget 0 (sortDesc score cands)
  (sel, (sel.map cost).sum)

theorem greedyAcc_sum_le (budget : Nat) :
    ∀ (l : List α) (acc : Nat), acc ≤ budget →
      acc + ((greedyAcc cost budget acc l).map cost).sum ≤ budget := by
  intro l
  induction l with
  | nil =>
    intro acc hacc
    simpa [greedyAcc] using hacc
  | cons m ms ih =>
    intro acc hacc
    by_cases hfit : acc + cost m ≤ budget
    · have := ih (acc + cost m) hfit
      simp only [greedyAcc, if_pos hfit, List.map_cons, List.sum_cons]
      omega
    · simp only [greedyAcc, if_neg hfit, List.map_nil, List.sum_nil]
      omega

theorem greedyAcc_prefix (budget : Nat) :
    ∀ (l : List α) (acc : Nat), ∃ t, greedyAcc cost budget acc l ++ t = l := by
  intro l
  induction l with
  | nil => intro acc; exact ⟨[], rfl⟩
  | cons m ms ih =>
    intro acc
    by_cases hfit : acc + cost m ≤ budget
    · obtain ⟨t, ht⟩ := ih (acc + cost m)
      exact ⟨t, by simp only [greedyAcc, if_pos hfit, List.cons_append, ht]⟩
    · exact ⟨m :: ms, by simp only [greedyAcc, if_neg hfit, List.nil_append]⟩

theorem greedyAcc_frontier (budget : Nat) :
    ∀ (l : List α) (acc : Nat) (c : α) (rest : List α),
      l = greedyAcc cost budget acc l ++ c :: rest →
      budget < acc + ((greedyAcc cost budget acc l).map cost).sum + cost c := by
  intro l
  induction l with
  | nil =>
    intro acc c rest h
    simp [greedyAcc] at h
  | cons m ms ih =>
    intro acc c rest h
    by_cases hfit : acc + cost m ≤ budget
    · rw [greedyAcc, if_pos hfit] at h ⊢
      rw [List.cons_append, List.cons.injEq] at h
      have := ih (acc + cost m) c rest h.2
      simp only [List.map_cons, List.sum_cons]
      omega
    · rw [greedyAcc, if_neg hfit] at h ⊢
      rw [List.nil_append, List.cons.injEq] at h
      rw [h.1] at hfit
      simp only [List.map_nil, List.sum_nil]
      omega

theorem mem_insertDesc (m : α) : ∀ (l : List α) (y : α),
    y ∈ insertDesc score m l → y = m ∨ y ∈ l := by
  intro l
  induction l with
  | nil =>
    intro y hy
    simp [insertDesc] at hy
    exact Or.inl hy
  | cons x xs ih =>
    intro y hy
    rw [insertDesc] at hy
    by_cases hc : score x < score m
    · rw [if_pos hc] at hy
      rcases List.mem_cons.mp hy with h | h
      · exact Or.inl h
      · exact Or.inr h
    · rw [if_neg hc] at hy
      rcases List.mem_cons.mp hy with h | h
      · exact Or.inr (h ▸ List.mem_cons_self x xs)
      · rcases ih y h with h2 | h2
        · exact Or.inl h2
        · exact Or.inr (List.mem_cons_of_mem x h2)

theorem insertDesc_sorted (m : α) : ∀ (l : List α),
    l.Pairwise (fun a b => score b ≤ score a) →
    (insertDesc score m l).Pairwise (fun a b => score b ≤ score a) := by
  intro l
  induction l with
  | nil =>
    intro _
    simp [insertDesc]
  | cons x xs ih =>
    intro hl
    rw [List.pairwise_cons] at hl
    rw [insertDesc]
    by_cases hc : score x < score m
    · rw [if_pos hc]
      rw [List.pairwise_cons]
      constructor
      · intro y hy
        rcases List.mem_cons.mp hy with h | h
        · exact h ▸ Int.le_of_lt hc
        · exact le_trans (hl.1 y h) (Int.le_of_lt hc)
      · exact List.Pairwise.cons hl.1 hl.2
    · rw [if_neg hc]
      rw [List.pairwise_cons]
      constructor
      · intro y hy
        rcases mem_insertDesc score m xs y hy with h | h
        · exact h ▸ Int.not_lt.mp hc
        · exact hl.1 y h
      · exact ih hl.2

theorem sortDesc_sorted (cands : List α) :
    (sortDesc score cands).Pairwise (fun a b => score b ≤ score a) := by
  have general : ∀ (l acc : List α),
      acc.Pairwise (fun a b => score b ≤ score a) →
      (l.foldl (fun acc m => insertDesc score m acc) acc).Pairwise
        (fun a b => score b ≤ score a) := by
    intro l
    induction l with
    | nil => intro acc hacc; exact hacc
    | cons m ms ih =>
      intro acc hacc
      exact ih _ (insertDesc_sorted score m acc hacc)
  exact general cands [] List.Pairwise.nil

/-- C2 (spec-modelled): for every candidate list, budget and cost
function, `queryWithinBudget` returns the greedy prefix of the
descending-score order: the reported total is the summed cost of the
selection, it never exceeds the budget, every memory is included whole,
the selection is a prefix of the score-sorted candidates (so every
excluded candidate scores no higher than any included one), and the first
excluded candidate would not have fit in the remaining budget. -/
theorem queryWithinBudget_spec (cands : List α) (budget : Nat) :
    (queryWithinBudget score cost cands budget).2 =
        (((queryWithinBudget score cost cands budget).1).map cost).sum ∧
    (queryWithinBudget score cost cands budget).2 ≤ budget ∧
    (∃ t, (queryWithinBudget score cost cands budget).1 ++ t = sortDesc score cands) ∧
    (sortDesc score cands).Pairwise (fun a b => score b ≤ score a) ∧
    (∀ c rest, sortDesc score cands =
        (queryWithinBudget score cost cands budget).1 ++ c :: rest →
      budget < (queryWithinBudget score cost cands budget).2 + cost c) := by
  refine ⟨rfl, ?_, ?_, sortDesc_sorted score cands, ?_⟩
  · have := greedyAcc_sum_le cost budget (sortDesc score cands) 0 (Nat.zero_le budget)
    simpa [queryWithinBudget] using this
  · exact greedyAcc_prefix cost budget (sortDesc score cands) 0
  · intro c rest h
    have h2 : sortDesc score cands =
        greedyAcc cost budget 0 (sortDesc score cands) ++ c :: rest := h
    have := greedyAcc_frontier cost budget (sortDesc score cands) 0 c rest h2
    simpa [queryWithinBudget] using this

/-- Witness for `queryWithinBudget_spec`: two unit-cost candidates scored
by value, budget 1 — the higher-scored one is selected, the other would
exceed the budget. -/
theorem queryWithinBudget_spec_witness :
    (queryWithinBudget (fun n : Nat => (n : Int)) (fun _ => 1) [1, 2] 1).2 ≤ 1 ∧
      (1 : Nat) < (queryWithinBudget (fun n : Nat => (n : Int)) (fun _ => 1) [1, 2] 1).2 + 1 := by
  have h := queryWithinBudget_spec (fun n : Nat => (n : Int)) (fun _ => 1) [1, 2] 1
  refine ⟨h.2.1, ?_⟩
  have hfr := h.2.2.2.2 1 [] (by decide)
  simpa using hfr

end Budget

-- ===========================================================================
-- Export/View panel projection (source: PANEL_JS in the export module)
-- ===========================================================================

/-- One memory record as consumed by the export panel
(`window.__PANEL_DATA__.memories`). -/
structure PMem where
  id : List Char
  type : List Char
  importance : List Char
  content : List Char
  context : List Char
  tags : List (List Char)
  createdAt : Nat
  accessCount : Nat
deriving DecidableEq

/-- The panel's filter state (source `state` object). -/
structure PanelState where
  filterType : List Char
  filterImportance : List Char
  searchQuery : List Char
  visibleCount : Nat
deriving DecidableEq

/-- Source constant `PAGE_SIZE = 50`. -/
def PAGE_SIZE : Nat := 50

/-- The string `"all"`. -/
def allStr : List Char := ("all").toList

/-- Initial panel state. -/
def initState : PanelState := ⟨allStr, allStr, [], PAGE_SIZE⟩

/-- The panel's UI events: search input (debounced, trimmed value), type
filter click, importance filter click, and the show-more button. -/
inductive PanelEvent where
  | searchInput (val : List Char)
  | typeFilter (t : List Char)
  | impFilter (i : List Char)
  | showMore

/-- The state update performed by each event handler in `PANEL_JS`:
search and filter clicks store the new value and reset `visibleCount`
to `PAGE_SIZE`; the show-more button adds `PAGE_SIZE`. -/
def step (s : PanelState) : PanelEvent → PanelState
  | .searchInput v => { s with searchQuery := v, visibleCount := PAGE_SIZE }
  | .typeFilter t => { s with filterType := t, visibleCount := PAGE_SIZE }
  | .impFilter i => { s with filterImportance := i, visibleCount := PAGE_SIZE }
  | .showMore => { s with visibleCount := s.visibleCount + PAGE_SIZE }

/-- `toLowerCase()` on a character list. -/
def toLowerStr (l : List Char) : List Char := l.map Char.toLower

/-- Does `q` start the list `l`? -/
def leadsWith : List Char → List Char → Bool
  | [], _ => true
  | _ :: _, [] => false
  | q :: qs, h :: t => q == h && leadsWith qs t

/-- `hay.indexOf(q) !== -1`: `q` occurs contiguously in `hay`. -/
def strContains : List Char → List Char → Bool
  | [], q => q.isEmpty
  | h :: t, q => leadsWith q (h :: t) || strContains t q

/-- The space character used by `tags.join(" ")`. -/
def spaceChar : Char := ' '

/-- The panel's `matches(mem)` predicate: reject on type-filter mismatch,
then on importance-filter mismatch, then — when the search query is
non-empty — when the lowercased query occurs in none of the lowercased
content, context, and space-joined tags; otherwise accept. -/
def matchesMem (st : PanelState) (m : PMem) : Bool :=
  if st.filterType ≠ allStr ∧ m.type ≠ st.filterType then false
  else if st.filterImportance ≠ allStr ∧ m.importance ≠ st.filterImportance then false
  else if st.searchQuery ≠ [] ∧
      strContains (toLowerStr m.content) (toLowerStr st.searchQuery) = false ∧
      strContains (toLowerStr m.context) (toLowerStr st.searchQuery) = false ∧
      strContains (toLowerStr (List.intercalate [spaceChar] m.tags))
        (toLowerStr st.searchQuery) = false
    then false
  else true

/-- Stable insertion used to model the panel's load-time sort. -/
def insertByCreated (m : PMem) : List PMem → List PMem
  | [] => [m]
  | x :: xs => if x.createdAt < m.createdAt then m :: x :: xs else x :: insertByCreated m xs

/-- The panel's load-time sort
`data.memories.slice().sort((a, b) => b.createdAt - a.createdAt)`:
JavaScript's sort is stable, so this is a stable descending sort by
`createdAt` — equal keys keep their original relative order.  Inserting
the elements in list order after all equal keys realises exactly that. -/
def sortMems (l : List PMem) : List PMem :=
  l.foldl (fun acc m => insertByCreated m acc) []

/-- `renderMemories`' visible subset: filter the sorted memories with
`matches`, then show the first `visibleCount` of them. -/
def applyState (st : PanelState) (mems : List PMem) : List PMem :=
  ((sortMems mems).filter (matchesMem st)).take st.visibleCount

-- ===========================================================================
-- Claim C8: the show-more handler
-- ===========================================================================

/-- C8: `showMore` adds the fixed page increment 50 to the visible count
and leaves the type filter, importance filter and search text unchanged. -/
theorem step_showMore (s : PanelState) :
    (step s PanelEvent.showMore).visibleCount = s.visibleCount + 50 ∧
    (step s PanelEvent.showMore).filterType = s.filterType ∧
    (step s PanelEvent.showMore).filterImportance = s.filterImportance ∧
    (step s PanelEvent.showMore).searchQuery = s.searchQuery :=
  ⟨rfl, rfl, rfl, rfl⟩

-- ===========================================================================
-- Claim C9: the filter predicate
-- ===========================================================================

/-- `q` occurs as a contiguous substring of `hay`. -/
def OccursIn (q hay : List Char) : Prop := ∃ pre post, hay = pre ++ q ++ post

theorem leadsWith_iff : ∀ (q l : List Char), leadsWith q l = true ↔ ∃ post, l = q ++ post := by
  intro q
  induction q with
  | nil =>
    intro l
    simp [leadsWith]
  | cons c cs ih =>
    intro l
    cases l with
    | nil =>
      simp [leadsWith]
    | cons h t =>
      simp only [leadsWith, Bool.and_eq_true, beq_iff_eq]
      rw [ih]
      constructor
      · rintro ⟨rfl, post, rfl⟩
        exact ⟨post, rfl⟩
      · rintro ⟨post, hpost⟩
        rw [List.cons_append] at hpost
        injection hpost with h1 h2
        exact ⟨h1.symm, post, h2⟩

theorem strContains_iff : ∀ (hay q : List Char), strContains hay q = true ↔ OccursIn q hay := by
  intro hay
  induction hay with
  | nil =>
    intro q
    simp only [strContains, OccursIn]
    cases q with
    | nil =>
      simp only [List.isEmpty_nil]
      exact ⟨fun _ => ⟨[], [], rfl⟩, fun _ => trivial⟩
    | cons c cs =>
      constructor
      · intro h
        simp [List.isEmpty] at h
      · rintro ⟨pre, post, hp⟩
        have := congrArg List.length hp
        simp at this
        omega
  | cons h t ih =>
    intro q
    simp only [strContains, Bool.or_eq_true]
    rw [leadsWith_iff, ih]
    constructor
    · rintro (⟨post, hpost⟩ | ⟨pre, post, hp⟩)
      · exact ⟨[], post, by simpa using hpost⟩
      · exact ⟨h :: pre, post, by simp [hp]⟩
    · rintro ⟨pre, post, hp⟩
      cases pre with
      | nil =>
        exact Or.inl ⟨post, by simpa using hp⟩
      | cons p ps =>
        rw [List.cons_append] at hp
        injection hp with h1 h2
        exact Or.inr ⟨ps, post, h2⟩

/-- C9: a memory is in the filtered set iff its type equals the type
filter (or that filter is "all"), its importance equals the importance
filter (or that filter is "all"), and — when the free-text query is
non-empty — the lowercased query occurs as a substring of the lowercased
content, the lowercased context, or the lowercased space-joined tags. -/
theorem matchesMem_iff (st : PanelState) (m : PMem) :
    matchesMem st m = true ↔
      ((st.filterType = allStr ∨ m.type = st.filterType) ∧
       (st.filterImportance = allStr ∨ m.importance = st.filterImportance) ∧
       (st.searchQuery ≠ [] →
         (OccursIn (toLowerStr st.searchQuery) (toLowerStr m.content) ∨
          OccursIn (toLowerStr st.searchQuery) (toLowerStr m.context) ∨
          OccursIn (toLowerStr st.searchQuery)
            (toLowerStr (List.intercalate [spaceChar] m.tags))))) := by
  rw [matchesMem]
  by_cases h1 : st.filterType ≠ allStr ∧ m.type ≠ st.filterType
  · rw [if_pos h1]
    constructor
    · intro h
      exact absurd h (by simp)
    · rintro ⟨ht, _, _⟩
      rcases ht with ht | ht
      · exact absurd ht h1.1
      · exact absurd ht h1.2
  · rw [if_neg h1]
    have hA : st.filterType = allStr ∨ m.type = st.filterType := by tauto
    by_cases h2 : st.filterImportance ≠ allStr ∧ m.importance ≠ st.filterImportance
    · rw [if_pos h2]
      constructor
      · intro h
        exact absurd h (by simp)
      · rintro ⟨_, hi, _⟩
        rcases hi with hi | hi
        · exact absurd hi h2.1
        · exact absurd hi h2.2
    · rw [if_neg h2]
      have hB : st.filterImportance = allStr ∨ m.importance = st.filterImportance := by tauto
      by_cases h3 : st.searchQuery ≠ [] ∧
          strContains (toLowerStr m.content) (toLowerStr st.searchQuery) = false ∧
          strContains (toLowerStr m.context) (toLowerStr st.searchQuery) = false ∧
          strContains (toLowerStr (List.intercalate [spaceChar] m.tags))
            (toLowerStr st.searchQuery) = false
      · rw [if_pos h3]
        constructor
        · intro h
          exact absurd h (by simp)
        · rintro ⟨_, _, hq⟩
          rcases hq h3.1 with ho | ho | ho
          · have := (strContains_iff _ _).mpr ho
            rw [h3.2.1] at this
            exact absurd this (by simp)
          · have := (strContains_iff _ _).mpr ho
            rw [h3.2.2.1] at this
            exact absurd this (by simp)
          · have := (strContains_iff _ _).mpr ho
            rw [h3.2.2.2] at this
            exact absurd this (by simp)
      · rw [if_neg h3]
        constructor
        · intro _
          refine ⟨hA, hB, ?_⟩
          intro hne
          by_contra hno
          push_neg at hno
          obtain ⟨hn1, hn2, hn3⟩ := hno
          apply h3
          refine ⟨hne, ?_, ?_, ?_⟩
          · exact Bool.eq_false_iff.mpr (fun hc => hn1 ((strContains_iff _ _).mp hc))
          · exact Bool.eq_false_iff.mpr (fun hc => hn2 ((strContains_iff _ _).mp hc))
          · exact Bool.eq_false_iff.mpr (fun hc => hn3 ((strContains_iff _ _).mp hc))
        · intro _
          rfl

/-- Witness for `matchesMem_iff`: in the initial state (both filters
"all", empty query) every memory matches. -/
theorem matchesMem_iff_witness :
    matchesMem initState ⟨[], [], [], [], [], [], 0, 0⟩ = true :=
  (matchesMem_iff initState ⟨[], [], [], [], [], [], 0, 0⟩).mpr
    ⟨Or.inl rfl, Or.inl rfl, fun h => absurd rfl h⟩

-- ===========================================================================
-- Claim C7: determinism, idempotence and order of the projection
-- ===========================================================================

theorem mem_insertByCreated (m : PMem) : ∀ (l : List PMem) (y : PMem),
    y ∈ insertByCreated m l → y = m ∨ y ∈ l := by
  intro l
  induction l with
  | nil =>
    intro y hy
    simp [insertByCreated] at hy
    exact Or.inl hy
  | cons x xs ih =>
    intro y hy
    rw [insertByCreated] at hy
    by_cases hc : x.createdAt < m.createdAt
    · rw [if_pos hc] at hy
      rcases List.mem_cons.mp hy with h | h
      · exact Or.inl h
      · exact Or.inr h
    · rw [if_neg hc] at hy
      rcases List.mem_cons.mp hy with h | h
      · exact Or.inr (h ▸ List.mem_cons_self x xs)
      · rcases ih y h with h2 | h2
        · exact Or.inl h2
        · exact Or.inr (List.mem_cons_of_mem x h2)

theorem insertByCreated_sorted (m : PMem) : ∀ (l : List PMem),
    l.Pairwise (fun a b => b.createdAt ≤ a.createdAt) →
    (insertByCreated m l).Pairwise (fun a b => b.createdAt ≤ a.createdAt) := by
  intro l
  induction l with
  | nil =>
    intro _
    simp [insertByCreated]
  | cons x xs ih =>
    intro hl
    rw [List.pairwise_cons] at hl
    rw [insertByCreated]
    by_cases hc : x.createdAt < m.createdAt
    · rw [if_pos hc]
      rw [List.pairwise_cons]
      constructor
      · intro y hy
        rcases List.mem_cons.mp hy with h | h
        · rw [h]
          omega
        · have := hl.1 y h
          omega
      · exact List.Pairwise.cons hl.1 hl.2
    · rw [if_neg hc]
      rw [List.pairwise_cons]
      constructor
      · intro y hy
        rcases mem_insertByCreated m xs y hy with h | h
        · rw [h]
          omega
        · exact hl.1 y h
      · exact ih hl.2

theorem sortMems_sorted (l : List PMem) :
    (sortMems l).Pairwise (fun a b => b.createdAt ≤ a.createdAt) := by
  have general : ∀ (l acc : List PMem),
      acc.Pairwise (fun a b => b.createdAt ≤ a.createdAt) →
      (l.foldl (fun acc m => insertByCreated m acc) acc).Pairwise
        (fun a b => b.createdAt ≤ a.createdAt) := by
    intro l
    induction l with
    | nil => intro acc hacc; exact hacc
    | cons m ms ih =>
      intro acc hacc
      exact ih _ (insertByCreated_sorted m acc hacc)
  exact general l [] List.Pairwise.nil

theorem insertByCreated_append (m : PMem) : ∀ (l : List PMem),
    (∀ x ∈ l, ¬ x.createdAt < m.createdAt) → insertByCreated m l = l ++ [m] := by
  intro l
  induction l with
  | nil =>
    intro _
    rfl
  | cons x xs ih =>
    intro h
    rw [insertByCreated, if_neg (h x (List.mem_cons_self x xs)),
      ih (fun y hy => h y (List.mem_cons_of_mem x hy))]
    rfl

theorem foldl_insert_of_sorted : ∀ (l acc : List PMem),
    (acc ++ l).Pairwise (fun a b => b.createdAt ≤ a.createdAt) →
    l.foldl (fun acc m => insertByCreated m acc) acc = acc ++ l := by
  intro l
  induction l with
  | nil =>
    intro acc _
    simp
  | cons m ms ih =>
    intro acc h
    have hmem : ∀ x ∈ acc, ¬ x.createdAt < m.createdAt := by
      intro x hx
      have := (List.pairwise_append.mp h).2.2 x hx m (List.mem_cons_self m ms)
      omega
    rw [List.foldl_cons, insertByCreated_append m acc hmem]
    have h2 : ((acc ++ [m]) ++ ms).Pairwise (fun a b => b.createdAt ≤ a.createdAt) := by
      simpa [List.append_assoc] using h
    rw [ih (acc ++ [m]) h2]
    simp

theorem sortMems_of_sorted {l : List PMem}
    (h : l.Pairwise (fun a b => b.createdAt ≤ a.createdAt)) : sortMems l = l := by
  have := foldl_insert_of_sorted l [] (by simpa using h)
  simpa [sortMems] using this

/-- The order asserted by the claim, tie direction ascending by id:
`createdAt` strictly descending, equal `createdAt` resolved by `id`. -/
def ordTieAscById : List PMem → Bool
  | [] => true
  | [_] => true
  | a :: b :: t =>
    (decide (b.createdAt < a.createdAt) ||
      (a.createdAt == b.createdAt && lexLt a.id b.id)) && ordTieAscById (b :: t)

/-- The order asserted by the claim, tie direction descending by id. -/
def ordTieDescById : List PMem → Bool
  | [] => true
  | [_] => true
  | a :: b :: t =>
    (decide (b.createdAt < a.createdAt) ||
      (a.createdAt == b.createdAt && lexLt b.id a.id)) && ordTieDescById (b :: t)

/-- A concrete panel memory with the given one-character id, `createdAt = 5`. -/
def cexMem (c : Char) : PMem := ⟨[c], [], [], [], [], [], 5, 0⟩

/-- Three memories with equal `createdAt` in materialized order b, a, c. -/
def c7Mems : List PMem := [cexMem ('b'), cexMem ('a'), cexMem ('c')]

/-- C7 counterexample: on three memories with equal `createdAt` arriving
in order b, a, c, the projection keeps the materialized order b, a, c —
which is neither ascending nor descending by id — so ties are *not*
broken by id. -/
theorem applyState_tie_cex :
    ordTieAscById (applyState initState c7Mems) = false ∧
    ordTieDescById (applyState initState c7Mems) = false := by
  decide

/-- C7 (amended): the projection is a pure function of the state and the
materialized list (hence deterministic), re-applying it to its own output
reproduces it exactly (idempotence), and the visible subset is ordered by
`createdAt` descending with ties kept in the order of the materialized
list (JavaScript's stable sort), not re-ordered by id. -/
theorem applyState_order (st : PanelState) (mems : List PMem) :
    (applyState st mems).Pairwise (fun a b => b.createdAt ≤ a.createdAt) ∧
    (applyState st mems).Sublist (sortMems mems) ∧
    applyState st (applyState st mems) = applyState st mems := by
  have hsorted := sortMems_sorted mems
  have hsub : (applyState st mems).Sublist (sortMems mems) :=
    (List.take_sublist st.visibleCount ((sortMems mems).filter (matchesMem st))).trans
      (List.filter_sublist (sortMems mems))
  have hvsorted : (applyState st mems).Pairwise (fun a b => b.createdAt ≤ a.createdAt) :=
    List.Pairwise.sublist hsub hsorted
  refine ⟨hvsorted, hsub, ?_⟩
  show ((sortMems (applyState st mems)).filter (matchesMem st)).take st.visibleCount
      = applyState st mems
  rw [sortMems_of_sorted hvsorted]
  have hall : ∀ x ∈ applyState st mems, matchesMem st x = true := by
    intro x hx
    exact List.of_mem_filter (List.mem_of_mem_take hx)
  rw [List.filter_eq_self.mpr hall]
  exact List.take_of_length_le (List.length_take_le st.visibleCount _)

-- ===========================================================================
-- Claim C10: HTML escaping (source `escHtml` / `escAttr`)
-- ===========================================================================

/-- The ampersand character. -/
def ampChar : Char := '&'

/-- The less-than character. -/
def ltChar : Char := '<'

/-- The greater-than character. -/
def gtChar : Char := '>'

/-- The double-quote character. -/
def quotChar : Char := Char.ofNat 34

/-- The single-quote character. -/
def aposChar : Char := Char.ofNat 39

/-- The entity `&#39;` as a character list. -/
def aposEntity : List Char := [ampChar, Char.ofNat 35, Char.ofNat 51, Char.ofNat 57, Char.ofNat 59]

/-- `s.replace(/c/g, r)` for a single-character pattern `c`. -/
def repChar (c : Char) (r : List Char) (l : List Char) : List Char :=
  (l.map (fun x => if x = c then r else [x])).flatten

/-- Source `escHtml`: replace `&`, then `<`, then `>`, then `"` by their
entities. -/
def escHtml (s : List Char) : List Char :=
  repChar quotChar (("&quot;").toList)
    (repChar gtChar (("&gt;").toList)
      (repChar ltChar (("&lt;").toList)
        (repChar ampChar (("&amp;").toList) s)))

/-- Source `escAttr`: `escHtml`, then additionally replace the single
quote by its entity. -/
def escAttr (s : List Char) : List Char :=
  repChar aposChar aposEntity (escHtml s)

theorem not_mem_repChar_self {c : Char} {r : List Char} (hr : c ∉ r) (l : List Char) :
    c ∉ repChar c r l := by
  intro h
  rw [repChar, List.mem_flatten] at h
  obtain ⟨li, hli, hc⟩ := h
  rw [List.mem_map] at hli
  obtain ⟨x, _, rfl⟩ := hli
  by_cases hxc : x = c
  · rw [if_pos hxc] at hc
    exact hr hc
  · rw [if_neg hxc] at hc
    rw [List.mem_singleton] at hc
    exact hxc hc.symm

theorem not_mem_repChar_other {c d : Char} {r l : List Char} (hl : c ∉ l) (hr : c ∉ r) :
    c ∉ repChar d r l := by
  intro h
  rw [repChar, List.mem_flatten] at h
  obtain ⟨li, hli, hc⟩ := h
  rw [List.mem_map] at hli
  obtain ⟨x, hx, rfl⟩ := hli
  by_cases hxd : x = d
  · rw [if_pos hxd] at hc
    exact hr hc
  · rw [if_neg hxd] at hc
    rw [List.mem_singleton] at hc
    exact hl (hc ▸ hx)

theorem escHtml_not_mem_lt (s : List Char) : ltChar ∉ escHtml s :=
  not_mem_repChar_other
    (not_mem_repChar_other (not_mem_repChar_self (by decide) _) (by decide))
    (by decide)

theorem escHtml_not_mem_gt (s : List Char) : gtChar ∉ escHtml s :=
  not_mem_repChar_other (not_mem_repChar_self (by decide) _) (by decide)

theorem escHtml_not_mem_quot (s : List Char) : quotChar ∉ escHtml s :=
  not_mem_repChar_self (by decide) _

theorem contains_eq_false_of_not_mem {c : Char} {l : List Char} (h : c ∉ l) :
    l.contains c = false := by
  rw [Bool.eq_false_iff]
  intro hc
  exact h (List.elem_iff.mp hc)

/-- C10: `escHtml` output never contains a literal `<`, `>` or `"`, and
`escAttr` output additionally never contains a literal single quote — so
interpolated memory content, tags, agent names and narrative text cannot
introduce markup into the exported panel document. -/
theorem esc_no_markup (s : List Char) :
    (escHtml s).contains ltChar = false ∧
    (escHtml s).contains gtChar = false ∧
    (escHtml s).contains quotChar = false ∧
    (escAttr s).contains ltChar = false ∧
    (escAttr s).contains gtChar = false ∧
    (escAttr s).contains quotChar = false ∧
    (escAttr s).contains aposChar = false := by
  refine ⟨contains_eq_false_of_not_mem (escHtml_not_mem_lt s),
    contains_eq_false_of_not_mem (escHtml_not_mem_gt s),
    contains_eq_false_of_not_mem (escHtml_not_mem_quot s),
    contains_eq_false_of_not_mem
      (not_mem_repChar_other (escHtml_not_mem_lt s) (by decide)),
    contains_eq_false_of_not_mem
      (not_mem_repChar_other (escHtml_not_mem_gt s) (by decide)),
    contains_eq_false_of_not_mem
      (not_mem_repChar_other (escHtml_not_mem_quot s) (by decide)),
    contains_eq_false_of_not_mem (not_mem_repChar_self (by decide) _)⟩

end AgentForge
